import Mathlib

/-!
# Stake manager: shallow embedding

A shallow embedding of the polybft stake manager (`stake_manager.go`):
the validator stake map, the per-block stake-ingestion pipeline
(`PostBlock`), the epoch delta engine (`UpdateValidatorSet`) and the
transfer-event extractor (`getTransferEventsFromReceipts`).

Modelling conventions:
* `types.Address` (20 raw bytes) is modelled as `List Nat`;
  `bytes.Compare` becomes lexicographic order on the byte list.
* `*big.Int` voting powers are modelled as `Int` (values, no aliasing:
  `Copy()` in the source exists precisely so that map mutation does not
  alias the input set, which value semantics gives for free).
* A Go `map` is modelled as an association list of its entries keyed by
  the `Address` field; Go's unspecified iteration order is handled by
  quantifying theorems over permutations of the entry list.
* The BLS public key is opaque: `PubKey := Nat`; only presence/identity
  of the key matters to this code.
* External collaborators (the root-chain relayer call chain inside
  `getNewValidatorInfo`, the event parser `contractsapi.TransferEvent.ParseLog`,
  the stake store) are passed in as function/value parameters.
* `sort.Slice` is an unstable sort, but the comparator used by
  `getActiveValidators` is a strict total order on entries with pairwise
  distinct addresses (which map entries are), so every execution produces
  the same sorted list; the embedding uses insertion sort with the very
  same comparator.
-/

/-- A raw address: the sequence of its bytes (`types.Address`). -/
abbrev Address := List Nat

/-- Opaque BLS public key material (`*bls.PublicKey`). -/
abbrev PubKey := Nat

/-- One validator's consensus-relevant state (`ValidatorMetadata`). -/
structure ValidatorMetadata where
  Address : Address
  VotingPower : Int
  BlsKey : Option PubKey
  IsActive : Bool
deriving DecidableEq, Repr

/-- An ordered sequence of validator metadata (`AccountSet`). -/
abbrev AccountSet := List ValidatorMetadata

/-- `bytes.Compare v1.Address v2.Address < 0`: strict lexicographic order
on raw address bytes (a strict prefix is smaller). -/
def addrLt : Address → Address → Bool
  | [], [] => false
  | [], _ :: _ => true
  | _ :: _, [] => false
  | x :: xs, y :: ys => if x < y then true else if x = y then addrLt xs ys else false

/-- The comparator of `getActiveValidators`'s `sort.Slice` call:
`v1` before `v2` iff `v1` has strictly larger voting power, or equal
voting power and strictly smaller address bytes. -/
def valLt (v1 v2 : ValidatorMetadata) : Bool :=
  if v2.VotingPower < v1.VotingPower then true
  else if v1.VotingPower = v2.VotingPower then addrLt v1.Address v2.Address
  else false

/-- Insert one element into a list sorted by `valLt` (helper of the
insertion sort that models `sort.Slice` with the comparator above). -/
def insertVal (v : ValidatorMetadata) : List ValidatorMetadata → List ValidatorMetadata
  | [] => [v]
  | w :: ws => if valLt v w then v :: w :: ws else w :: insertVal v ws

/-- Sorting by `valLt` (models the `sort.Slice` call of
`getActiveValidators`; see the header comment on unstable sorting). -/
def sortVals : List ValidatorMetadata → List ValidatorMetadata
  | [] => []
  | v :: vs => insertVal v (sortVals vs)

/-- The in-memory stake map `validatorStakeMap`, as the association list
of its entries (keyed by the `Address` field). -/
abbrev StakeMap := List ValidatorMetadata

/-- Go map read `(*sc)[address]`: the entry for `address`, if any. -/
def lookupAddr (m : StakeMap) (a : Address) : Option ValidatorMetadata :=
  m.find? (fun v => decide (v.Address = a))

/-- Go map write on an existing key: replace the entry for the address. -/
def updateAddr (m : StakeMap) (a : Address) (d : ValidatorMetadata) : StakeMap :=
  m.map (fun v => if v.Address = a then d else v)

/-- Go map write `stakeMap[v.Address] = v`: overwrite if the key exists,
otherwise add a fresh entry. -/
def mapSet (m : StakeMap) (d : ValidatorMetadata) : StakeMap :=
  if (lookupAddr m d.Address).isSome then updateAddr m d.Address d else m ++ [d]

/-- `newValidatorStakeMap`: build the stake map from a full validator
set, copying each entry. -/
def newValidatorStakeMap (validatorSet : AccountSet) : StakeMap :=
  validatorSet.foldl mapSet []

/-- `addStake`: if the address exists, add `amount` to its voting power
and recompute `IsActive`; otherwise create a fresh entry with no BLS key
and (in the source, unconditionally) `IsActive := true`. -/
def addStake (m : StakeMap) (address : Address) (amount : Int) : StakeMap :=
  match lookupAddr m address with
  | some metadata =>
      updateAddr m address
        { metadata with
          VotingPower := metadata.VotingPower + amount,
          IsActive := decide (0 < metadata.VotingPower + amount) }
  | none =>
      m ++ [{ Address := address, VotingPower := amount, BlsKey := none, IsActive := true }]

/-- `removeStake`: subtract `amount` from the entry's voting power and
recompute `IsActive`. The source reads `(*sc)[address]` and dereferences
it without a presence check; the absent-address case is the `none`
result, standing for the nil-pointer fault. -/
def removeStake (m : StakeMap) (address : Address) (amount : Int) : Option StakeMap :=
  match lookupAddr m address with
  | none => none
  | some stakeData =>
      some (updateAddr m address
        { stakeData with
          VotingPower := stakeData.VotingPower - amount,
          IsActive := decide (0 < stakeData.VotingPower - amount) })

/-- `getActiveValidators`: entries with strictly positive voting power,
in comparator order, truncated to `maxValidatorSetSize`. -/
def getActiveValidators (m : StakeMap) (maxValidatorSetSize : Nat) : List ValidatorMetadata :=
  let activeValidators := m.filter (fun v => decide (0 < v.VotingPower))
  let sorted := sortVals activeValidators
  if sorted.length ≤ maxValidatorSetSize then sorted else sorted.take maxValidatorSetSize

/-- Modelled from the spec: `contractsapi.TransferEvent` (not under src).
Section 3: `From`, `To` addresses and a `Value` magnitude. -/
structure TransferEvent where
  From : Address
  To : Address
  Value : Int
deriving DecidableEq, Repr

/-- Modelled from the spec: the zero/sentinel address used to classify
transfer events (20 zero bytes). -/
def zeroAddress : Address := List.replicate 20 0

/-- Modelled from the spec: a transfer is a *stake* (mint) event when
`From` is the zero/sentinel address. -/
def TransferEvent.IsStake (e : TransferEvent) : Bool :=
  decide (e.From = zeroAddress)

/-- Modelled from the spec: a transfer is an *unstake* (burn) event when
`To` is the zero/sentinel address. -/
def TransferEvent.IsUnstake (e : TransferEvent) : Bool :=
  decide (e.To = zeroAddress)

/-- The event-application loop of `PostBlock`: stake events call
`addStake` on `To`, unstake events call `removeStake` on `From`, other
events are only logged. `none` propagates the `removeStake` fault. -/
def applyEvents (m : StakeMap) : List TransferEvent → Option StakeMap
  | [] => some m
  | event :: rest =>
      if event.IsStake then applyEvents (addStake m event.To event.Value) rest
      else if event.IsUnstake then
        match removeStake m event.From event.Value with
        | none => none
        | some m2 => applyEvents m2 rest
      else applyEvents m rest

/-- A receipt log (`types.Log`): its emitting address, and an opaque
payload consumed only by the external event parser. -/
structure Log where
  Address : Address
  payload : Nat
deriving DecidableEq, Repr

/-- A transaction receipt (`types.Receipt`): optional status and logs. -/
structure Receipt where
  Status : Option Nat
  Logs : List Log
deriving DecidableEq, Repr

/-- `types.ReceiptSuccess`. -/
def ReceiptSuccess : Nat := 1

/-- The inner loop of `getTransferEventsFromReceipts` over one receipt's
logs. `parseLog` is the external `TransferEvent.ParseLog` collaborator:
`.error` is a parse error, `.ok none` means the log does not match the
event signature, `.ok (some e)` is a parsed transfer event. The source
skips logs from other addresses before parsing. -/
def eventsFromLogs (validatorSetContract : Address)
    (parseLog : Log → Except String (Option TransferEvent)) :
    List Log → Except String (List TransferEvent)
  | [] => .ok []
  | log :: rest =>
      if log.Address ≠ validatorSetContract then
        eventsFromLogs validatorSetContract parseLog rest
      else
        match parseLog log with
        | .error e => .error e
        | .ok none => eventsFromLogs validatorSetContract parseLog rest
        | .ok (some ev) =>
            (eventsFromLogs validatorSetContract parseLog rest).map (ev :: ·)

/-- `getTransferEventsFromReceipts`: collect transfer events from the
logs of receipts with a success status, in receipt order then log
order; the first parse error aborts the whole call. -/
def getTransferEventsFromReceipts (validatorSetContract : Address)
    (parseLog : Log → Except String (Option TransferEvent)) :
    List Receipt → Except String (List TransferEvent)
  | [] => .ok []
  | receipt :: rest =>
      if receipt.Status ≠ some ReceiptSuccess then
        getTransferEventsFromReceipts validatorSetContract parseLog rest
      else
        match eventsFromLogs validatorSetContract parseLog receipt.Logs with
        | .error e => .error e
        | .ok evs =>
            (getTransferEventsFromReceipts validatorSetContract parseLog rest).map (evs ++ ·)

/-- `getNewValidatorInfo`: queries the supernet manager for a new
validator's data. The relayer call / hex decode / ABI decode / BLS
unmarshal chain is abstracted into the external `lookup` oracle that
either fails or yields the BLS key; on success the source builds exactly
this record. -/
def getNewValidatorInfo (lookup : Address → Int → Except String PubKey)
    (address : Address) (stake : Int) : Except String ValidatorMetadata :=
  (lookup address stake).map
    (fun pubKey =>
      { Address := address, VotingPower := stake, BlsKey := some pubKey, IsActive := true })

/-- One iteration of `PostBlock`'s resolution loop over the stake map:
entries without a BLS key get one `getNewValidatorInfo` attempt (failure
keeps the entry as-is), then `IsActive` is recomputed from the final
voting power. -/
def resolveEntry (lookup : Address → Int → Except String PubKey)
    (data : ValidatorMetadata) : ValidatorMetadata :=
  let d :=
    if data.BlsKey = none then
      match getNewValidatorInfo lookup data.Address data.VotingPower with
      | .error _ => data
      | .ok newValidatorMetaData => newValidatorMetaData
    else data
  { d with IsActive := decide (0 < d.VotingPower) }

/-- The outcome of one `PostBlock` call: an error return, a nil-pointer
fault (from `removeStake` on an absent address), or success carrying
what was persisted to the store (`none` when the block had no events
and the store was untouched). -/
inductive PBOutcome where
  | ok (written : Option AccountSet)
  | err (e : String)
  | fault
deriving DecidableEq, Repr

/-- `PostBlock`: extract transfer events, and if there are any, load the
full validator set, apply the events to the stake map, resolve missing
BLS keys (failures tolerated), recompute `IsActive`, and persist.
`storedSet` is the store's answer to `getFullValidatorSet`, `insertErr`
the store's answer to `insertFullValidatorSet`. -/
def PostBlock (validatorSetContract : Address)
    (parseLog : Log → Except String (Option TransferEvent))
    (lookup : Address → Int → Except String PubKey)
    (storedSet : Except String AccountSet)
    (insertErr : Option String)
    (receipts : List Receipt) : PBOutcome :=
  match getTransferEventsFromReceipts validatorSetContract parseLog receipts with
  | .error e => .err e
  | .ok events =>
      if events.isEmpty then .ok none
      else
        match storedSet with
        | .error e => .err e
        | .ok fullValidatorSet =>
            match applyEvents (newValidatorStakeMap fullValidatorSet) events with
            | none => .fault
            | some stakeMap =>
                let newFullValidatorSet := stakeMap.map (resolveEntry lookup)
                match insertErr with
                | some e => .err e
                | none => .ok (some newFullValidatorSet)

/-- `PostEpochRequest`: the new epoch id and the genesis validator set
(`req.ValidatorSet.Accounts()`). -/
structure PostEpochRequest where
  NewEpochID : Nat
  ValidatorSet : AccountSet
deriving DecidableEq, Repr

/-- `PostEpoch`: only at epoch 1 is the request's validator set saved as
the initial full validator set; otherwise nothing happens. Returns the
store contents after the call and the error returned, modelling the
store as an optional persisted set and `insertErr` as the store's answer
to the insert. -/
def PostEpoch (req : PostEpochRequest) (insertErr : Option String)
    (store : Option AccountSet) : Option AccountSet × Option String :=
  if req.NewEpochID ≠ 1 then (store, none)
  else
    match insertErr with
    | some e => (store, some e)
    | none => (some req.ValidatorSet, none)

/-- The removal bitmap (`bitmap.Bitmap`): the set of marked positions,
listed in the ascending order the loop produces them. -/
abbrev Bitmap := List Nat

/-- The delta transforming one committee into the next
(`ValidatorSetDelta`). -/
structure ValidatorSetDelta where
  Added : AccountSet
  Updated : AccountSet
  Removed : Bitmap
deriving DecidableEq, Repr

/-- The `oldActiveMap` read: a Go map built by iterating the old
validator set keeps the last entry written for an address. -/
def lookupLast (validatorSet : AccountSet) (a : Address) : Option ValidatorMetadata :=
  validatorSet.reverse.find? (fun v => decide (v.Address = a))

/-- The first loop of `UpdateValidatorSet`, for the removal bitmap:
walking the old validator set from position `i`, mark each position
whose address does not occur in `addressesSet`. -/
def computeRemoved (i : Nat) (addressesSet : List Address) : AccountSet → Bitmap
  | [] => []
  | validator :: rest =>
      if validator.Address ∈ addressesSet then computeRemoved (i + 1) addressesSet rest
      else i :: computeRemoved (i + 1) addressesSet rest

/-- The second loop of `UpdateValidatorSet`: classify each member of the
next committee as updated (on the committee with changed voting power),
added (absent; with one fatal `getNewValidatorInfo` attempt when the BLS
key is missing) or unchanged. Returns `(added, updated, lookups)` where
`lookups` records each `(address, stake)` the registry was queried for. -/
def computeAddedUpdated (lookup : Address → Int → Except String PubKey)
    (oldValidatorSet : AccountSet) :
    List ValidatorMetadata → Except String (AccountSet × AccountSet × List (Address × Int))
  | [] => .ok ([], [], [])
  | newValidator :: rest =>
      match lookupLast oldValidatorSet newValidator.Address with
      | some oldValidator =>
          (computeAddedUpdated lookup oldValidatorSet rest).map (fun r =>
            if oldValidator.VotingPower ≠ newValidator.VotingPower then
              (r.1, newValidator :: r.2.1, r.2.2)
            else r)
      | none =>
          if newValidator.BlsKey = none then
            match getNewValidatorInfo lookup newValidator.Address newValidator.VotingPower with
            | .error e => .error e
            | .ok validatorData =>
                (computeAddedUpdated lookup oldValidatorSet rest).map (fun r =>
                  (validatorData :: r.1, r.2.1,
                    (newValidator.Address, newValidator.VotingPower) :: r.2.2))
          else
            (computeAddedUpdated lookup oldValidatorSet rest).map (fun r =>
              (newValidator :: r.1, r.2.1, r.2.2))

/-- `UpdateValidatorSet`: load the full set, select the next committee,
and diff it against the old one. `storedSet` is the store's answer to
`getFullValidatorSet`; `lookup` the registry oracle of
`getNewValidatorInfo`. The debug-only re-application of the delta (run
only under `logger.IsDebug()`) is modelled with debug logging off. -/
def UpdateValidatorSet (lookup : Address → Int → Except String PubKey)
    (maxValidatorSetSize : Nat)
    (storedSet : Except String AccountSet)
    (oldValidatorSet : AccountSet) : Except String ValidatorSetDelta :=
  match storedSet with
  | .error e => .error e
  | .ok fullValidatorSet =>
      let stakeMap := newValidatorStakeMap fullValidatorSet
      let newValidatorSet := getActiveValidators stakeMap maxValidatorSetSize
      let addressesSet := newValidatorSet.map (·.Address)
      let removedBitmap := computeRemoved 0 addressesSet oldValidatorSet
      match computeAddedUpdated lookup oldValidatorSet newValidatorSet with
      | .error e => .error e
      | .ok r => .ok { Added := r.1, Updated := r.2.1, Removed := removedBitmap }

/-- The resolution applied to one would-be-added validator in the second
loop of `UpdateValidatorSet`: a missing BLS key triggers one fatal
registry lookup, otherwise the validator is taken as-is. -/
def resolveNew (lookup : Address → Int → Except String PubKey)
    (v : ValidatorMetadata) : Except String ValidatorMetadata :=
  if v.BlsKey = none then getNewValidatorInfo lookup v.Address v.VotingPower else .ok v

/-- `resolveNew` over a list, failing at the first failing lookup (the
specification-side description of the `Added` sequence). -/
def resolveList (lookup : Address → Int → Except String PubKey) :
    List ValidatorMetadata → Except String AccountSet
  | [] => .ok []
  | v :: vs =>
      match resolveNew lookup v with
      | .error e => .error e
      | .ok w => (resolveList lookup vs).map (w :: ·)

/-- Removal of bitmap-marked positions from a committee, walking the
committee from position `i`. -/
def removeAtPositions (i : Nat) (removed : Bitmap) : AccountSet → AccountSet
  | [] => []
  | v :: vs =>
      if i ∈ removed then removeAtPositions (i + 1) removed vs
      else v :: removeAtPositions (i + 1) removed vs

/-- Modelled from the spec: `AccountSet.ApplyDelta` is not under src;
section 6's application rule is "remove entries at marked bitmap
positions from the previous committee, then append `Added`, then
overwrite entries matching `Updated` by address". -/
def applyDelta (committee : AccountSet) (delta : ValidatorSetDelta) : AccountSet :=
  let kept := removeAtPositions 0 delta.Removed committee
  let appended := kept ++ delta.Added
  appended.map (fun v =>
    match delta.Updated.find? (fun u => decide (u.Address = v.Address)) with
    | some u => u
    | none => v)

/-- The spec-side description of the logs `getTransferEventsFromReceipts`
parses: logs of receipts with a success status, in receipt order then
log order, emitted by the configured contract. -/
def relevantLogs (validatorSetContract : Address) (receipts : List Receipt) : List Log :=
  ((receipts.filter (fun r => decide (r.Status = some ReceiptSuccess))).flatMap Receipt.Logs).filter
    (fun l => decide (l.Address = validatorSetContract))

/-- The spec-side description of event extraction: parse every relevant
log in order, keep the matches, abort at the first parse error. -/
def collectEvents (parseLog : Log → Except String (Option TransferEvent)) :
    List Log → Except String (List TransferEvent)
  | [] => .ok []
  | l :: ls =>
      match parseLog l with
      | .error e => .error e
      | .ok none => collectEvents parseLog ls
      | .ok (some ev) => (collectEvents parseLog ls).map (ev :: ·)


/-- The next committee the delta engine selects: the active validators
of the stake map built from the stored full set, capped at the maximum
committee size (the `newValidatorSet` of `UpdateValidatorSet`). -/
def nextCommittee (fullSet : AccountSet) (maxSize : Nat) : List ValidatorMetadata :=
  getActiveValidators (newValidatorStakeMap fullSet) maxSize

/-- A sample committee used to instantiate the theorems (the worked
example of the specification). -/
def sampleCurrent : AccountSet :=
  [⟨[10], 100, some 1, true⟩, ⟨[11], 50, some 2, true⟩]

/-- A sample stored full validator set (the worked example of the
specification: B at 50, C at 75, cap 2). -/
def sampleFull : AccountSet :=
  [⟨[10], 100, some 1, true⟩, ⟨[11], 50, some 2, true⟩, ⟨[12], 75, some 3, true⟩]

/-- A sample registry oracle that always resolves. -/
def sampleLookup : Address → Int → Except String PubKey := fun _ _ => .ok 9

/-- A sample registry oracle that always fails. -/
def failLookup : Address → Int → Except String PubKey := fun _ _ => .error "no validator data"

/-! ## Basic stake-map lemmas -/

theorem lookupAddr_some_addr {m : StakeMap} {a : Address} {d : ValidatorMetadata}
    (h : lookupAddr m a = some d) : d.Address = a := by
  unfold lookupAddr at h
  have := List.find?_some h
  simpa using this

theorem lookupAddr_some_mem {m : StakeMap} {a : Address} {d : ValidatorMetadata}
    (h : lookupAddr m a = some d) : d ∈ m := by
  unfold lookupAddr at h
  exact List.mem_of_find?_eq_some h

theorem lookupAddr_eq_none_iff (m : StakeMap) (a : Address) :
    lookupAddr m a = none ↔ a ∉ m.map (·.Address) := by
  unfold lookupAddr
  rw [List.find?_eq_none]
  simp [List.mem_map]

theorem lookupAddr_isSome_iff (m : StakeMap) (a : Address) :
    (lookupAddr m a).isSome ↔ a ∈ m.map (·.Address) := by
  rw [Option.isSome_iff_ne_none, ne_eq, lookupAddr_eq_none_iff, not_not]

theorem lookupAddr_updateAddr_self (m : StakeMap) (a : Address) (d' : ValidatorMetadata)
    (hd : d'.Address = a) (h : (lookupAddr m a).isSome) :
    lookupAddr (updateAddr m a d') a = some d' := by
  induction m with
  | nil => simp [lookupAddr] at h
  | cons v vs ih =>
      by_cases hv : v.Address = a
      · simp [lookupAddr, updateAddr, List.find?_cons, hv, hd]
      · simp only [lookupAddr, updateAddr, List.map_cons, if_neg hv] at *
        rw [List.find?_cons_of_neg _ (by simpa using hv)] at h ⊢
        exact ih h

/-! ## Claim C4: mutation invariant -/

/-- C4 (counterexample): `addStake` on an absent address with amount `0`
creates an entry with `IsActive = true` but zero voting power, so the
invariant `IsActive == (VotingPower > 0)` fails after this mutation. -/
theorem addStake_new_entry_invariant_cex :
    (addStake ([] : StakeMap) [0] 0).all
      (fun v => v.IsActive == decide (0 < v.VotingPower)) = false := by
  decide

/-- C4 (amended): `addStake` on an existing address and `removeStake`
recompute `IsActive` from the new voting power, so the invariant holds
for the mutated entry; `addStake` on an absent address appends a fresh
entry with `VotingPower = amount`, no BLS key, and `IsActive = true`
unconditionally, so that entry satisfies the invariant iff the amount is
strictly positive. -/
theorem stake_mutation_invariant (m : StakeMap) (a : Address) (amt : Int) :
    (∀ d, lookupAddr m a = some d →
        lookupAddr (addStake m a amt) a =
          some { d with VotingPower := d.VotingPower + amt,
                        IsActive := decide (0 < d.VotingPower + amt) })
    ∧ (lookupAddr m a = none →
        addStake m a amt =
          m ++ [{ Address := a, VotingPower := amt, BlsKey := none, IsActive := true }]
        ∧ ((({ Address := a, VotingPower := amt, BlsKey := none,
               IsActive := true } : ValidatorMetadata).IsActive
              = decide (0 < amt)) ↔ 0 < amt))
    ∧ (∀ d, lookupAddr m a = some d →
        removeStake m a amt =
          some (updateAddr m a
            { d with VotingPower := d.VotingPower - amt,
                     IsActive := decide (0 < d.VotingPower - amt) })) := by
  refine ⟨?_, ?_, ?_⟩
  · intro d hd
    rw [addStake, hd]
    exact lookupAddr_updateAddr_self m a _ (by simpa using lookupAddr_some_addr hd) (by rw [hd]; rfl)
  · intro hn
    refine ⟨by rw [addStake, hn], ?_⟩
    simp
  · intro d hd
    rw [removeStake, hd]

/-- C4 witness. -/
theorem stake_mutation_invariant_witness :
    lookupAddr (addStake [⟨[1], 5, none, true⟩] [1] 3) [1] = some ⟨[1], 8, none, true⟩
    ∧ addStake ([] : StakeMap) [1] 3 = [⟨[1], 3, none, true⟩]
    ∧ removeStake [⟨[1], 5, none, true⟩] [1] 3 = some [⟨[1], 2, none, true⟩] := by
  refine ⟨?_, ?_, ?_⟩
  · have h := (stake_mutation_invariant [⟨[1], 5, none, true⟩] [1] 3).1 ⟨[1], 5, none, true⟩ rfl
    simpa using h
  · have h := ((stake_mutation_invariant ([] : StakeMap) [1] 3).2.1 rfl).1
    simpa using h
  · have h := (stake_mutation_invariant [⟨[1], 5, none, true⟩] [1] 3).2.2 ⟨[1], 5, none, true⟩ rfl
    simpa [updateAddr] using h

/-! ## Claim C9: removeStake requires presence -/

/-- C9: `removeStake` reaches its fault (`none`, the nil dereference)
exactly when the address is absent; when the address is present it
faults nowhere, decrements the entry's voting power by the amount and
recomputes `IsActive`. -/
theorem removeStake_presence (m : StakeMap) (a : Address) (amt : Int) :
    ((removeStake m a amt).isSome ↔ (lookupAddr m a).isSome)
    ∧ (∀ d, lookupAddr m a = some d →
        ∃ m', removeStake m a amt = some m' ∧
          lookupAddr m' a =
            some { d with VotingPower := d.VotingPower - amt,
                          IsActive := decide (0 < d.VotingPower - amt) }) := by
  constructor
  · rw [removeStake]
    cases h : lookupAddr m a <;> simp
  · intro d hd
    refine ⟨_, by rw [removeStake, hd], ?_⟩
    exact lookupAddr_updateAddr_self m a _ (by simpa using lookupAddr_some_addr hd) (by rw [hd]; rfl)

/-- C9 witness. -/
theorem removeStake_presence_witness :
    ((removeStake [⟨[1], 5, none, true⟩] [1] 3).isSome ↔
      (lookupAddr [⟨[1], 5, none, true⟩] [1]).isSome)
    ∧ ∃ m', removeStake [⟨[1], 5, none, true⟩] [1] 3 = some m' ∧
        lookupAddr m' [1] = some ⟨[1], 2, none, true⟩ := by
  constructor
  · exact (removeStake_presence [⟨[1], 5, none, true⟩] [1] 3).1
  · have h := (removeStake_presence [⟨[1], 5, none, true⟩] [1] 3).2 ⟨[1], 5, none, true⟩ rfl
    simpa using h

/-! ## Claim C10: PostEpoch writes only at the first epoch -/

/-- C10: for any request whose `NewEpochID` differs from `1`, `PostEpoch`
returns nil and leaves the store untouched; at `NewEpochID = 1` (with the
insert succeeding) the request's validator set is saved as the full
validator set. -/
theorem PostEpoch_first_epoch_only (req : PostEpochRequest) (insertErr : Option String)
    (store : Option AccountSet) :
    (req.NewEpochID ≠ 1 → PostEpoch req insertErr store = (store, none))
    ∧ (req.NewEpochID = 1 → insertErr = none →
        PostEpoch req insertErr store = (some req.ValidatorSet, none)) := by
  constructor
  · intro h
    simp [PostEpoch, h]
  · intro h hie
    simp [PostEpoch, h, hie]

/-- C10 witness. -/
theorem PostEpoch_first_epoch_only_witness :
    PostEpoch ⟨2, []⟩ none (some [⟨[1], 5, none, true⟩])
      = (some [⟨[1], 5, none, true⟩], none)
    ∧ PostEpoch ⟨1, [⟨[2], 7, none, true⟩]⟩ none none
      = (some [⟨[2], 7, none, true⟩], none) :=
  ⟨(PostEpoch_first_epoch_only ⟨2, []⟩ none (some [⟨[1], 5, none, true⟩])).1 (by decide),
   (PostEpoch_first_epoch_only ⟨1, [⟨[2], 7, none, true⟩]⟩ none none).2 rfl rfl⟩

/-! ## Claim C8: the transfer-event extractor -/

theorem eventsFromLogs_eq_collect (c : Address)
    (p : Log → Except String (Option TransferEvent)) (logs : List Log) :
    eventsFromLogs c p logs = collectEvents p (logs.filter (fun l => decide (l.Address = c))) := by
  induction logs with
  | nil => rfl
  | cons l ls ih =>
      by_cases hl : l.Address = c
      · simp only [eventsFromLogs, hl, ne_eq, not_true_eq_false, if_false,
          List.filter_cons, decide_eq_true_eq, if_pos hl, collectEvents]
        rw [ih]
      · simp only [eventsFromLogs, ne_eq, hl, not_false_eq_true, if_true,
          List.filter_cons]
        rw [if_neg (by simp [hl])]
        exact ih

theorem collectEvents_append (p : Log → Except String (Option TransferEvent))
    (xs ys : List Log) :
    collectEvents p (xs ++ ys) =
      match collectEvents p xs with
      | .error e => .error e
      | .ok evs => (collectEvents p ys).map (evs ++ ·) := by
  induction xs with
  | nil =>
      simp only [List.nil_append, collectEvents]
      cases collectEvents p ys <;> rfl
  | cons x xs ih =>
      cases hx : p x with
      | error e => simp [collectEvents, hx]
      | ok r =>
          cases r with
          | none =>
              simp only [List.cons_append, collectEvents, hx, List.append_eq]
              exact ih
          | some ev =>
              simp only [List.cons_append, collectEvents, hx, List.append_eq]
              rw [ih]
              cases collectEvents p xs with
              | error e => rfl
              | ok evs =>
                  cases collectEvents p ys <;> rfl

/-- C8: `getTransferEventsFromReceipts` returns exactly the events parsed
from the logs of success-status receipts emitted by the configured
contract, in receipt order then log order; other receipts and logs are
skipped without error, and the first parse error on a relevant log is
returned instead of any events. -/
theorem getTransferEvents_spec (c : Address)
    (p : Log → Except String (Option TransferEvent)) (receipts : List Receipt) :
    getTransferEventsFromReceipts c p receipts = collectEvents p (relevantLogs c receipts) := by
  induction receipts with
  | nil => rfl
  | cons r rs ih =>
      by_cases hr : r.Status = some ReceiptSuccess
      · simp only [getTransferEventsFromReceipts, hr, ne_eq, not_true_eq_false, if_false]
        have hrel : relevantLogs c (r :: rs) =
            r.Logs.filter (fun l => decide (l.Address = c)) ++ relevantLogs c rs := by
          simp [relevantLogs, List.filter_cons, hr, List.filter_append]
        rw [hrel, collectEvents_append, eventsFromLogs_eq_collect, ih]
      · simp only [getTransferEventsFromReceipts, ne_eq, hr, not_false_eq_true, if_true]
        have hrel : relevantLogs c (r :: rs) = relevantLogs c rs := by
          simp [relevantLogs, List.filter_cons, hr]
        rw [hrel, ih]

/-! ## Claim C7: PostBlock tolerates registry-lookup failures -/

/-- C7: with extraction, store read and store write all succeeding, a
`PostBlock` run returns success for every registry oracle — a lookup
failure for an entry without a BLS key never produces an error return —
and any such unresolved entry is kept with its computed voting power, no
BLS key and `IsActive` recomputed from that power, inside the persisted
full validator set. -/
theorem PostBlock_tolerates_lookup_failure (c : Address)
    (p : Log → Except String (Option TransferEvent))
    (lookup : Address → Int → Except String PubKey)
    (fullSet : AccountSet) (receipts : List Receipt)
    (events : List TransferEvent) (stakeMap : StakeMap)
    (hev : getTransferEventsFromReceipts c p receipts = .ok events)
    (hne : events ≠ [])
    (happ : applyEvents (newValidatorStakeMap fullSet) events = some stakeMap) :
    PostBlock c p lookup (.ok fullSet) none receipts
      = .ok (some (stakeMap.map (resolveEntry lookup)))
    ∧ ∀ d ∈ stakeMap, d.BlsKey = none →
        (∃ e, lookup d.Address d.VotingPower = .error e) →
          { d with IsActive := decide (0 < d.VotingPower) } ∈
            stakeMap.map (resolveEntry lookup) := by
  have hne' : events.isEmpty = false := by
    cases events with
    | nil => exact absurd rfl hne
    | cons e es => rfl
  constructor
  · simp only [PostBlock, hev, hne', Bool.false_eq_true, if_false, happ]
  · rintro d hd hkey ⟨e, he⟩
    have hres : resolveEntry lookup d = { d with IsActive := decide (0 < d.VotingPower) } := by
      simp [resolveEntry, hkey, getNewValidatorInfo, he, Except.map]
    rw [← hres]
    exact List.mem_map_of_mem _ hd

/-- C7 witness. -/
theorem PostBlock_tolerates_lookup_failure_witness :
    PostBlock [5] (fun _ => .ok (some ⟨zeroAddress, [1], 4⟩)) (fun _ _ => .error "x")
        (.ok []) none [⟨some 1, [⟨[5], 0⟩]⟩]
      = .ok (some [⟨[1], 4, none, true⟩])
    ∧ (⟨[1], 4, none, true⟩ : ValidatorMetadata) ∈
        ([⟨[1], 4, none, true⟩] : StakeMap).map
          (resolveEntry (fun _ _ => .error "x")) := by
  have h := PostBlock_tolerates_lookup_failure [5]
      (fun _ => .ok (some ⟨zeroAddress, [1], 4⟩)) (fun _ _ => .error "x")
      [] [⟨some 1, [⟨[5], 0⟩]⟩] [⟨zeroAddress, [1], 4⟩]
      [⟨[1], 4, none, true⟩] rfl (by decide) rfl
  exact ⟨h.1, h.2 ⟨[1], 4, none, true⟩ (by decide) rfl ⟨"x", rfl⟩⟩

/-! ## The committee order -/

theorem addrLt_irrefl (a : Address) : addrLt a a = false := by
  induction a with
  | nil => rfl
  | cons x xs ih => simp [addrLt, ih]

theorem addrLt_trans {a b c : Address} (h1 : addrLt a b = true) (h2 : addrLt b c = true) :
    addrLt a c = true := by
  induction a generalizing b c with
  | nil =>
      cases b with
      | nil => simp [addrLt] at h1
      | cons y ys =>
          cases c with
          | nil => simp [addrLt] at h2
          | cons z zs => rfl
  | cons x xs ih =>
      cases b with
      | nil => simp [addrLt] at h1
      | cons y ys =>
          cases c with
          | nil => simp [addrLt] at h2
          | cons z zs =>
              simp only [addrLt] at h1 h2 ⊢
              by_cases hxy : x < y
              · by_cases hyz : y < z
                · rw [if_pos (by omega)]
                · simp only [if_neg hyz] at h2
                  by_cases hyz' : y = z
                  · rw [if_pos (by omega)]
                  · simp [hyz'] at h2
              · simp only [if_neg hxy] at h1
                by_cases hxy' : x = y
                · simp only [if_pos hxy'] at h1
                  by_cases hyz : y < z
                  · rw [if_pos (by omega)]
                  · simp only [if_neg hyz] at h2
                    by_cases hyz' : y = z
                    · simp only [if_pos hyz'] at h2
                      rw [if_neg (by omega), if_pos (by omega)]
                      exact ih h1 h2
                    · simp [hyz'] at h2
                · simp [hxy'] at h1

theorem addrLt_eq_of_not {a b : Address} (h1 : addrLt a b = false)
    (h2 : addrLt b a = false) : a = b := by
  induction a generalizing b with
  | nil =>
      cases b with
      | nil => rfl
      | cons y ys => simp [addrLt] at h1
  | cons x xs ih =>
      cases b with
      | nil => simp [addrLt] at h2
      | cons y ys =>
          simp only [addrLt] at h1 h2
          by_cases hxy : x < y
          · simp [hxy] at h1
          · by_cases hyx : y < x
            · simp [hyx] at h2
            · have hxy' : x = y := by omega
              subst hxy'
              simp only [if_neg hxy, if_pos rfl] at h1 h2
              rw [ih h1 h2]

theorem valLt_irrefl (v : ValidatorMetadata) : valLt v v = false := by
  simp [valLt, addrLt_irrefl]

theorem valLt_eq_true_iff (a b : ValidatorMetadata) :
    valLt a b = true ↔
      b.VotingPower < a.VotingPower ∨
        (a.VotingPower = b.VotingPower ∧ addrLt a.Address b.Address = true) := by
  simp only [valLt]
  split_ifs with h1 h2
  · simp [h1]
  · simp [h1, h2]
  · simp [h1, h2]

theorem valLt_trans {a b c : ValidatorMetadata} (h1 : valLt a b = true)
    (h2 : valLt b c = true) : valLt a c = true := by
  rw [valLt_eq_true_iff] at h1 h2 ⊢
  rcases h1 with h1 | ⟨h1e, h1a⟩ <;> rcases h2 with h2 | ⟨h2e, h2a⟩
  · exact Or.inl (by omega)
  · exact Or.inl (by omega)
  · exact Or.inl (by omega)
  · exact Or.inr ⟨by omega, addrLt_trans h1a h2a⟩

theorem valLt_asymm {a b : ValidatorMetadata} (h : valLt a b = true) :
    valLt b a = false := by
  by_contra hc
  simp only [Bool.not_eq_false] at hc
  have h2 := valLt_trans h hc
  rw [valLt_irrefl] at h2
  exact Bool.false_ne_true h2

theorem valLt_addr_eq {a b : ValidatorMetadata} (h1 : valLt a b = false)
    (h2 : valLt b a = false) : a.Address = b.Address := by
  have h1' : ¬ (valLt a b = true) := by simp [h1]
  have h2' : ¬ (valLt b a = true) := by simp [h2]
  rw [valLt_eq_true_iff] at h1' h2'
  push_neg at h1' h2'
  have hpe : a.VotingPower = b.VotingPower := by
    rcases h1' with ⟨hp1, _⟩
    rcases h2' with ⟨hp2, _⟩
    omega
  have ha1 : addrLt a.Address b.Address = false := by
    rcases h1' with ⟨_, hq⟩
    have := hq hpe
    simp only [Bool.not_eq_true] at this
    exact this
  have ha2 : addrLt b.Address a.Address = false := by
    rcases h2' with ⟨_, hq⟩
    have := hq hpe.symm
    simp only [Bool.not_eq_true] at this
    exact this
  exact addrLt_eq_of_not ha1 ha2

theorem valLt_of_ne {a b : ValidatorMetadata} (hne : a.Address ≠ b.Address)
    (h : valLt b a = false) : valLt a b = true := by
  cases hq : valLt a b
  · exact absurd (valLt_addr_eq hq h) hne
  · rfl

open scoped List

/-! ## The sort of getActiveValidators -/

theorem insertVal_perm (v : ValidatorMetadata) (l : List ValidatorMetadata) :
    insertVal v l ~ v :: l := by
  induction l with
  | nil => exact List.Perm.refl _
  | cons w ws ih =>
      by_cases h : valLt v w = true
      · rw [insertVal, if_pos h]
      · rw [insertVal, if_neg h]
        exact List.Perm.trans (ih.cons w) (List.Perm.swap v w ws)

theorem sortVals_perm (l : List ValidatorMetadata) : sortVals l ~ l := by
  induction l with
  | nil => exact List.Perm.refl _
  | cons v vs ih =>
      exact List.Perm.trans (insertVal_perm v (sortVals vs)) (ih.cons v)

theorem mem_insertVal {v w : ValidatorMetadata} {l : List ValidatorMetadata} :
    w ∈ insertVal v l ↔ w = v ∨ w ∈ l := by
  constructor
  · intro h
    exact List.mem_cons.mp ((insertVal_perm v l).subset h)
  · intro h
    exact (insertVal_perm v l).symm.subset (List.mem_cons.mpr h)

theorem insertVal_pairwise {v : ValidatorMetadata} {l : List ValidatorMetadata}
    (h : l.Pairwise (fun a b => valLt b a = false)) :
    (insertVal v l).Pairwise (fun a b => valLt b a = false) := by
  induction l with
  | nil => simp [insertVal]
  | cons w ws ih =>
      rw [List.pairwise_cons] at h
      obtain ⟨hw, hws⟩ := h
      by_cases hvw : valLt v w = true
      · rw [insertVal, if_pos hvw, List.pairwise_cons]
        refine ⟨?_, by rw [List.pairwise_cons]; exact ⟨hw, hws⟩⟩
        intro b hb
        rcases List.mem_cons.mp hb with rfl | hbws
        · exact valLt_asymm hvw
        · by_contra hc
          simp only [Bool.not_eq_false] at hc
          have := valLt_trans hc hvw
          rw [hw b hbws] at this
          exact Bool.false_ne_true this
      · rw [insertVal, if_neg hvw, List.pairwise_cons]
        refine ⟨?_, ih hws⟩
        intro b hb
        rcases mem_insertVal.mp hb with rfl | hbws
        · simpa using hvw
        · exact hw b hbws

theorem sortVals_pairwise (l : List ValidatorMetadata) :
    (sortVals l).Pairwise (fun a b => valLt b a = false) := by
  induction l with
  | nil => simp [sortVals]
  | cons v vs ih => exact insertVal_pairwise ih

theorem sortVals_pairwise_strict (l : List ValidatorMetadata)
    (hnd : (l.map (·.Address)).Nodup) :
    (sortVals l).Pairwise (fun a b => valLt a b = true) := by
  have hweak := sortVals_pairwise l
  have hnd' : ((sortVals l).map (·.Address)).Nodup := by
    rw [List.Perm.nodup_iff ((sortVals_perm l).map (·.Address))]
    exact hnd
  have hne : (sortVals l).Pairwise (fun a b => a.Address ≠ b.Address) := by
    rw [List.Nodup, List.pairwise_map] at hnd'
    exact hnd'
  exact (hweak.and hne).imp (fun hab => valLt_of_ne hab.2 hab.1)

theorem sorted_perm_eq {l1 l2 : List ValidatorMetadata} (hp : l1 ~ l2)
    (h1 : l1.Pairwise (fun a b => valLt a b = true))
    (h2 : l2.Pairwise (fun a b => valLt a b = true)) : l1 = l2 := by
  haveI : IsAntisymm ValidatorMetadata (fun a b => valLt a b = true) :=
    ⟨fun a b hab hba => by rw [valLt_asymm hab] at hba; exact absurd hba Bool.false_ne_true⟩
  exact List.eq_of_perm_of_sorted hp h1 h2

theorem sortVals_eq_of_perm {l1 l2 : List ValidatorMetadata} (hp : l1 ~ l2)
    (hnd : (l1.map (·.Address)).Nodup) : sortVals l1 = sortVals l2 := by
  have hnd2 : (l2.map (·.Address)).Nodup := by
    rw [← List.Perm.nodup_iff (hp.map (·.Address))]
    exact hnd
  exact sorted_perm_eq ((sortVals_perm l1).trans (hp.trans (sortVals_perm l2).symm))
    (sortVals_pairwise_strict l1 hnd) (sortVals_pairwise_strict l2 hnd2)

/-! ## Claim C2: getActiveValidators -/

theorem getActiveValidators_eq_take (m : StakeMap) (n : Nat) :
    getActiveValidators m n
      = (sortVals (m.filter (fun v => decide (0 < v.VotingPower)))).take n := by
  simp only [getActiveValidators]
  by_cases h : (sortVals (m.filter (fun v => decide (0 < v.VotingPower)))).length ≤ n
  · rw [if_pos h, List.take_of_length_le h]
  · rw [if_neg h]

/-- C2: `getActiveValidators` returns exactly the entries with strictly
positive voting power, sorted strictly descending by voting power with
ties broken by ascending address bytes, truncated to at most `maxSize`
entries; when at most `maxSize` entries are active, all of them are
returned. -/
theorem getActiveValidators_spec (m : StakeMap) (maxSize : Nat)
    (hnd : (m.map (·.Address)).Nodup) :
    getActiveValidators m maxSize
        = (sortVals (m.filter (fun v => decide (0 < v.VotingPower)))).take maxSize
    ∧ (∀ v ∈ getActiveValidators m maxSize, v ∈ m ∧ 0 < v.VotingPower)
    ∧ (getActiveValidators m maxSize).Pairwise (fun a b => valLt a b = true)
    ∧ (getActiveValidators m maxSize).length ≤ maxSize
    ∧ ((m.filter (fun v => decide (0 < v.VotingPower))).length ≤ maxSize →
        getActiveValidators m maxSize ~ m.filter (fun v => decide (0 < v.VotingPower))) := by
  have heq := getActiveValidators_eq_take m maxSize
  have hndf : ((m.filter (fun v => decide (0 < v.VotingPower))).map (·.Address)).Nodup :=
    List.Nodup.sublist (List.Sublist.map _ (List.filter_sublist m)) hnd
  refine ⟨heq, ?_, ?_, ?_, ?_⟩
  · intro v hv
    rw [heq] at hv
    have hv2 : v ∈ sortVals (m.filter (fun v => decide (0 < v.VotingPower))) :=
      List.take_subset _ _ hv
    have hv3 := (sortVals_perm _).subset hv2
    rw [List.mem_filter] at hv3
    exact ⟨hv3.1, by simpa using hv3.2⟩
  · rw [heq]
    exact (sortVals_pairwise_strict _ hndf).sublist (List.take_sublist _ _)
  · rw [heq]
    calc ((sortVals (m.filter (fun v => decide (0 < v.VotingPower)))).take maxSize).length
        = min maxSize (sortVals (m.filter (fun v => decide (0 < v.VotingPower)))).length :=
          List.length_take _ _
      _ ≤ maxSize := min_le_left _ _
  · intro hlen
    rw [heq]
    have hlen2 : (sortVals (m.filter (fun v => decide (0 < v.VotingPower)))).length ≤ maxSize := by
      rw [(sortVals_perm _).length_eq]
      exact hlen
    rw [List.take_of_length_le hlen2]
    exact sortVals_perm _

/-- C2 witness. -/
theorem getActiveValidators_spec_witness :
    getActiveValidators [⟨[10], 100, some 1, true⟩, ⟨[11], 50, some 2, true⟩,
        ⟨[12], 75, some 3, true⟩] 2
      = (sortVals (([⟨[10], 100, some 1, true⟩, ⟨[11], 50, some 2, true⟩,
          ⟨[12], 75, some 3, true⟩] : StakeMap).filter
            (fun v => decide (0 < v.VotingPower)))).take 2
    ∧ (getActiveValidators [⟨[10], 100, some 1, true⟩, ⟨[11], 50, some 2, true⟩,
        ⟨[12], 75, some 3, true⟩] 2).length ≤ 2
    ∧ getActiveValidators [⟨[10], 100, some 1, true⟩, ⟨[11], 50, some 2, true⟩,
          ⟨[12], 75, some 3, true⟩] 3
        ~ ([⟨[10], 100, some 1, true⟩, ⟨[11], 50, some 2, true⟩,
            ⟨[12], 75, some 3, true⟩] : StakeMap).filter
            (fun v => decide (0 < v.VotingPower)) := by
  refine ⟨?_, ?_, ?_⟩
  · exact (getActiveValidators_spec [⟨[10], 100, some 1, true⟩, ⟨[11], 50, some 2, true⟩,
      ⟨[12], 75, some 3, true⟩] 2 (by decide)).1
  · exact (getActiveValidators_spec [⟨[10], 100, some 1, true⟩, ⟨[11], 50, some 2, true⟩,
      ⟨[12], 75, some 3, true⟩] 2 (by decide)).2.2.2.1
  · exact (getActiveValidators_spec [⟨[10], 100, some 1, true⟩, ⟨[11], 50, some 2, true⟩,
      ⟨[12], 75, some 3, true⟩] 3 (by decide)).2.2.2.2 (by decide)

/-! ## Claim C3: determinism of the delta computation -/

theorem foldl_mapSet_append (fs : AccountSet) :
    ∀ acc : StakeMap, ((acc ++ fs).map (·.Address)).Nodup →
      fs.foldl mapSet acc = acc ++ fs := by
  induction fs with
  | nil => intro acc _; simp
  | cons v vs ih =>
      intro acc h
      have h' := h
      rw [List.map_append, List.nodup_append] at h'
      have hv : v.Address ∉ acc.map (·.Address) := by
        intro hmem
        exact h'.2.2 hmem (by simp)
      have hset : mapSet acc v = acc ++ [v] := by
        rw [mapSet, if_neg (fun hc => hv ((lookupAddr_isSome_iff acc v.Address).mp hc))]
      rw [List.foldl_cons, hset]
      have hnd2 : (((acc ++ [v]) ++ vs).map (·.Address)).Nodup := by
        rw [List.append_assoc]
        simpa using h
      rw [ih (acc ++ [v]) hnd2, List.append_assoc]
      simp

theorem newValidatorStakeMap_eq_self (fs : AccountSet)
    (hnd : (fs.map (·.Address)).Nodup) : newValidatorStakeMap fs = fs := by
  have := foldl_mapSet_append fs [] (by simpa using hnd)
  simpa [newValidatorStakeMap] using this

/-- C3: `UpdateValidatorSet` is deterministic: permuting the stored full
validator set (the stake map has no defined iteration order, and the
store guarantees none) does not change the computed delta — the `Added`
and `Updated` sequences and the `Removed` bitmap come out identical; in
particular, recomputing from unchanged inputs yields an identical
delta. -/
theorem UpdateValidatorSet_deterministic (lookup : Address → Int → Except String PubKey)
    (maxSize : Nat) (fullSet1 fullSet2 old : AccountSet)
    (hperm : fullSet1 ~ fullSet2) (hnd : (fullSet1.map (·.Address)).Nodup) :
    UpdateValidatorSet lookup maxSize (.ok fullSet1) old
      = UpdateValidatorSet lookup maxSize (.ok fullSet2) old := by
  have hnd2 : (fullSet2.map (·.Address)).Nodup := by
    rw [← List.Perm.nodup_iff (hperm.map (·.Address))]
    exact hnd
  have hndf : ((fullSet1.filter (fun v => decide (0 < v.VotingPower))).map (·.Address)).Nodup :=
    List.Nodup.sublist (List.Sublist.map _ (List.filter_sublist fullSet1)) hnd
  have hga : getActiveValidators (newValidatorStakeMap fullSet1) maxSize
      = getActiveValidators (newValidatorStakeMap fullSet2) maxSize := by
    rw [newValidatorStakeMap_eq_self fullSet1 hnd, newValidatorStakeMap_eq_self fullSet2 hnd2,
      getActiveValidators_eq_take, getActiveValidators_eq_take,
      sortVals_eq_of_perm (hperm.filter _) hndf]
  simp only [UpdateValidatorSet]
  rw [hga]

/-- C3 witness. -/
theorem UpdateValidatorSet_deterministic_witness :
    UpdateValidatorSet (fun _ _ => .ok 7) 2
        (.ok [⟨[10], 100, some 1, true⟩, ⟨[11], 50, some 2, true⟩])
        [⟨[10], 100, some 1, true⟩]
      = UpdateValidatorSet (fun _ _ => .ok 7) 2
        (.ok [⟨[11], 50, some 2, true⟩, ⟨[10], 100, some 1, true⟩])
        [⟨[10], 100, some 1, true⟩] :=
  UpdateValidatorSet_deterministic (fun _ _ => .ok 7) 2
    [⟨[10], 100, some 1, true⟩, ⟨[11], 50, some 2, true⟩]
    [⟨[11], 50, some 2, true⟩, ⟨[10], 100, some 1, true⟩]
    [⟨[10], 100, some 1, true⟩] (by decide) (by decide)

/-! ## The removal bitmap -/

theorem computeRemoved_ge {addrs : List Address} {vs : AccountSet} {k j : Nat}
    (h : j ∈ computeRemoved k addrs vs) : k ≤ j := by
  induction vs generalizing k with
  | nil => simp [computeRemoved] at h
  | cons v rest ih =>
      rw [computeRemoved] at h
      by_cases hv : v.Address ∈ addrs
      · rw [if_pos hv] at h
        have := ih h
        omega
      · rw [if_neg hv] at h
        rcases List.mem_cons.mp h with rfl | h2
        · omega
        · have := ih h2
          omega

theorem mem_computeRemoved {addrs : List Address} {vs : AccountSet} {k j : Nat} :
    j ∈ computeRemoved k addrs vs ↔
      ∃ i v', vs.get? i = some v' ∧ v'.Address ∉ addrs ∧ j = k + i := by
  induction vs generalizing k with
  | nil => simp [computeRemoved]
  | cons v rest ih =>
      rw [computeRemoved]
      by_cases hv : v.Address ∈ addrs
      · rw [if_pos hv, ih]
        constructor
        · rintro ⟨i, v', h1, h2, rfl⟩
          exact ⟨i + 1, v', by simpa using h1, h2, by omega⟩
        · rintro ⟨i, v', h1, h2, rfl⟩
          cases i with
          | zero =>
              rw [List.get?_cons_zero] at h1
              injection h1 with h1
              subst h1
              exact absurd hv h2
          | succ i =>
              rw [List.get?_cons_succ] at h1
              exact ⟨i, v', h1, h2, by omega⟩
      · rw [if_neg hv]
        constructor
        · intro hmem
          rcases List.mem_cons.mp hmem with rfl | h2
          · exact ⟨0, v, List.get?_cons_zero, hv, by omega⟩
          · rcases ih.mp h2 with ⟨i, v', h1, h2', rfl⟩
            exact ⟨i + 1, v', by simpa using h1, h2', by omega⟩
        · rintro ⟨i, v', h1, h2, rfl⟩
          cases i with
          | zero =>
              rw [List.get?_cons_zero] at h1
              injection h1 with h1
              subst h1
              exact List.mem_cons_self _ _
          | succ i =>
              rw [List.get?_cons_succ] at h1
              exact List.mem_cons_of_mem _ (ih.mpr ⟨i, v', h1, h2, by omega⟩)

/-! ## The classification loop -/

theorem computeAddedUpdated_ok {lookup : Address → Int → Except String PubKey}
    {old : AccountSet} {vs : List ValidatorMetadata}
    {a u : AccountSet} {t : List (Address × Int)}
    (h : computeAddedUpdated lookup old vs = .ok (a, u, t)) :
    u = vs.filter (fun v =>
        match lookupLast old v.Address with
        | some o => decide (o.VotingPower ≠ v.VotingPower)
        | none => false)
    ∧ resolveList lookup (vs.filter (fun v => (lookupLast old v.Address).isNone)) = .ok a
    ∧ t = (vs.filter (fun v =>
          decide (lookupLast old v.Address = none ∧ v.BlsKey = none))).map
            (fun v => (v.Address, v.VotingPower)) := by
  induction vs generalizing a u t with
  | nil =>
      rw [computeAddedUpdated] at h
      injection h with h
      simp only [Prod.mk.injEq] at h
      obtain ⟨rfl, rfl, rfl⟩ := h
      exact ⟨rfl, rfl, rfl⟩
  | cons v rest ih =>
      rw [computeAddedUpdated] at h
      cases hl : lookupLast old v.Address with
      | some o =>
          rw [hl] at h
          cases hrec : computeAddedUpdated lookup old rest with
          | error e =>
              rw [hrec] at h
              simp [Except.map] at h
          | ok r =>
              obtain ⟨a', u', t'⟩ := r
              rw [hrec] at h
              obtain ⟨hu', ha', ht'⟩ := ih hrec
              simp only [Except.map, Except.ok.injEq] at h
              by_cases hp : o.VotingPower ≠ v.VotingPower
              · rw [if_pos hp] at h
                obtain ⟨rfl, rfl, rfl⟩ := Prod.mk.injEq .. ▸ h
                refine ⟨?_, ?_, ?_⟩
                · rw [List.filter_cons_of_pos (by simp [hl, hp]), ← hu']
                · rw [List.filter_cons_of_neg (by simp [hl]), ha']
                · rw [List.filter_cons_of_neg (by simp [hl]), ht']
              · rw [if_neg hp] at h
                obtain ⟨rfl, rfl, rfl⟩ := Prod.mk.injEq .. ▸ h
                refine ⟨?_, ?_, ?_⟩
                · rw [List.filter_cons_of_neg (by simp [hl, hp]), ← hu']
                · rw [List.filter_cons_of_neg (by simp [hl]), ha']
                · rw [List.filter_cons_of_neg (by simp [hl]), ht']
      | none =>
          rw [hl] at h
          by_cases hk : v.BlsKey = none
          · rw [if_pos hk] at h
            cases hgi : getNewValidatorInfo lookup v.Address v.VotingPower with
            | error e =>
                rw [hgi] at h
                simp at h
            | ok w =>
                rw [hgi] at h
                cases hrec : computeAddedUpdated lookup old rest with
                | error e =>
                    rw [hrec] at h
                    simp [Except.map] at h
                | ok r =>
                    obtain ⟨a', u', t'⟩ := r
                    rw [hrec] at h
                    obtain ⟨hu', ha', ht'⟩ := ih hrec
                    simp only [Except.map, Except.ok.injEq] at h
                    obtain ⟨rfl, rfl, rfl⟩ := Prod.mk.injEq .. ▸ h
                    refine ⟨?_, ?_, ?_⟩
                    · rw [List.filter_cons_of_neg (by simp [hl]), ← hu']
                    · rw [List.filter_cons_of_pos (by simp [hl])]
                      simp [resolveList, resolveNew, hk, hgi, ha', Except.map]
                    · rw [List.filter_cons_of_pos (by simp [hl, hk]), List.map_cons, ← ht']
          · rw [if_neg hk] at h
            cases hrec : computeAddedUpdated lookup old rest with
            | error e =>
                rw [hrec] at h
                simp [Except.map] at h
            | ok r =>
                obtain ⟨a', u', t'⟩ := r
                rw [hrec] at h
                obtain ⟨hu', ha', ht'⟩ := ih hrec
                simp only [Except.map, Except.ok.injEq] at h
                obtain ⟨rfl, rfl, rfl⟩ := Prod.mk.injEq .. ▸ h
                refine ⟨?_, ?_, ?_⟩
                · rw [List.filter_cons_of_neg (by simp [hl]), ← hu']
                · rw [List.filter_cons_of_pos (by simp [hl])]
                  simp [resolveList, resolveNew, hk, ha', Except.map]
                · rw [List.filter_cons_of_neg (by simp [hl, hk]), ← ht']

theorem nextCommittee_eq (fullSet : AccountSet) (maxSize : Nat) :
    getActiveValidators (newValidatorStakeMap fullSet) maxSize
      = nextCommittee fullSet maxSize := rfl

theorem resolveNew_addr {lookup : Address → Int → Except String PubKey}
    {v w : ValidatorMetadata} (h : resolveNew lookup v = .ok w) :
    w.Address = v.Address ∧ w.VotingPower = v.VotingPower := by
  rw [resolveNew] at h
  by_cases hk : v.BlsKey = none
  · rw [if_pos hk, getNewValidatorInfo] at h
    cases hl : lookup v.Address v.VotingPower with
    | error e => rw [hl] at h; simp [Except.map] at h
    | ok k =>
        rw [hl] at h
        simp only [Except.map, Except.ok.injEq] at h
        subst h
        exact ⟨rfl, rfl⟩
  · rw [if_neg hk] at h
    injection h with h
    subst h
    exact ⟨rfl, rfl⟩

theorem resolveList_map_addr {lookup : Address → Int → Except String PubKey}
    {vs ws : List ValidatorMetadata} (h : resolveList lookup vs = .ok ws) :
    ws.map (·.Address) = vs.map (·.Address) := by
  induction vs generalizing ws with
  | nil =>
      rw [resolveList] at h
      injection h with h
      subst h
      rfl
  | cons v rest ih =>
      rw [resolveList] at h
      cases hr : resolveNew lookup v with
      | error e => rw [hr] at h; simp at h
      | ok w =>
          rw [hr] at h
          cases hrec : resolveList lookup rest with
          | error e => rw [hrec] at h; simp [Except.map] at h
          | ok ws' =>
              rw [hrec] at h
              simp only [Except.map, Except.ok.injEq] at h
              subst h
              rw [List.map_cons, List.map_cons, ih hrec, (resolveNew_addr hr).1]

theorem computeAddedUpdated_error {lookup : Address → Int → Except String PubKey}
    {old : AccountSet} {vs : List ValidatorMetadata}
    (h : ∃ v ∈ vs, lookupLast old v.Address = none ∧ v.BlsKey = none ∧
          ∃ e, lookup v.Address v.VotingPower = .error e) :
    ∃ e, computeAddedUpdated lookup old vs = .error e := by
  induction vs with
  | nil => simp at h
  | cons v rest ih =>
      rw [computeAddedUpdated]
      rcases h with ⟨w, hw, hl, hk, e, he⟩
      rcases List.mem_cons.mp hw with rfl | hwrest
      · rw [hl, if_pos hk, getNewValidatorInfo, he]
        exact ⟨e, by simp [Except.map]⟩
      · cases hl2 : lookupLast old v.Address with
        | some o =>
            rcases ih ⟨w, hwrest, hl, hk, e, he⟩ with ⟨e', he'⟩
            rw [he']
            exact ⟨e', by simp [Except.map]⟩
        | none =>
            by_cases hk2 : v.BlsKey = none
            · rw [if_pos hk2]
              cases hgi : getNewValidatorInfo lookup v.Address v.VotingPower with
              | error e2 => exact ⟨e2, rfl⟩
              | ok w2 =>
                  rcases ih ⟨w, hwrest, hl, hk, e, he⟩ with ⟨e', he'⟩
                  rw [he']
                  exact ⟨e', by simp [Except.map]⟩
            · rw [if_neg hk2]
              rcases ih ⟨w, hwrest, hl, hk, e, he⟩ with ⟨e', he'⟩
              rw [he']
              exact ⟨e', by simp [Except.map]⟩

/-! ## Claim C1: the delta characterization -/

/-- C1: for a successful `UpdateValidatorSet` run over a current
committee with unique addresses, the delta satisfies: position `i` is
marked in `Removed` iff the committee entry at position `i` has an
address absent from the next committee; `Updated` is exactly the next
committee filtered to validators on the committee with a different
voting power; `Added` is exactly (after the BLS-key resolution step) the
next committee filtered to validators absent from the committee, with
the same addresses; and a validator on both committees with unchanged
voting power appears in none of `Added`, `Updated`, or `Removed`. -/
theorem UpdateValidatorSet_delta_characterization
    (lookup : Address → Int → Except String PubKey) (maxSize : Nat)
    (fullSet old : AccountSet) (delta : ValidatorSetDelta)
    (_hnd : (old.map (·.Address)).Nodup)
    (hok : UpdateValidatorSet lookup maxSize (.ok fullSet) old = .ok delta) :
    (∀ i, i ∈ delta.Removed ↔
        ∃ v', old.get? i = some v' ∧
          v'.Address ∉ (nextCommittee fullSet maxSize).map (·.Address))
    ∧ delta.Updated = (nextCommittee fullSet maxSize).filter (fun v =>
        match lookupLast old v.Address with
        | some o => decide (o.VotingPower ≠ v.VotingPower)
        | none => false)
    ∧ resolveList lookup ((nextCommittee fullSet maxSize).filter
        (fun v => (lookupLast old v.Address).isNone)) = .ok delta.Added
    ∧ delta.Added.map (·.Address)
        = ((nextCommittee fullSet maxSize).filter
            (fun v => (lookupLast old v.Address).isNone)).map (·.Address)
    ∧ (∀ v ∈ nextCommittee fullSet maxSize, ∀ o, lookupLast old v.Address = some o →
        o.VotingPower = v.VotingPower →
          v ∉ delta.Added ∧ v ∉ delta.Updated ∧
            ∀ i v', old.get? i = some v' → v'.Address = v.Address →
              i ∉ delta.Removed) := by
  simp only [UpdateValidatorSet, nextCommittee_eq] at hok
  cases hcau : computeAddedUpdated lookup old (nextCommittee fullSet maxSize) with
  | error e => rw [hcau] at hok; simp at hok
  | ok r =>
      obtain ⟨ad, up, tr⟩ := r
      rw [hcau] at hok
      injection hok with hok
      subst hok
      obtain ⟨hu, ha, ht⟩ := computeAddedUpdated_ok hcau
      have hrem : ∀ i, i ∈ computeRemoved 0 ((nextCommittee fullSet maxSize).map (·.Address)) old ↔
          ∃ v', old.get? i = some v' ∧
            v'.Address ∉ (nextCommittee fullSet maxSize).map (·.Address) := by
        intro i
        rw [mem_computeRemoved]
        constructor
        · rintro ⟨i', v', h1, h2, rfl⟩
          rw [Nat.zero_add]
          exact ⟨v', h1, h2⟩
        · rintro ⟨v', h1, h2⟩
          exact ⟨i, v', h1, h2, by omega⟩
      have haddr : ad.map (·.Address)
          = ((nextCommittee fullSet maxSize).filter
              (fun v => (lookupLast old v.Address).isNone)).map (·.Address) :=
        resolveList_map_addr ha
      refine ⟨hrem, hu, ha, haddr, ?_⟩
      intro v hv o ho hpow
      refine ⟨?_, ?_, ?_⟩
      · intro hmem
        have hva : v.Address ∈ ad.map (·.Address) := List.mem_map_of_mem _ hmem
        rw [haddr, List.mem_map] at hva
        obtain ⟨w, hw, hwa⟩ := hva
        rw [List.mem_filter] at hw
        have := hw.2
        rw [hwa, ho] at this
        simp at this
      · intro hmem
        rw [hu, List.mem_filter] at hmem
        have := hmem.2
        rw [ho] at this
        simp only [decide_eq_true_eq] at this
        exact this hpow
      · intro i v' h1 h2 hmem
        rw [hrem i] at hmem
        obtain ⟨v'', h1', h3⟩ := hmem
        rw [h1] at h1'
        injection h1' with h1'
        subst h1'
        rw [h2] at h3
        exact h3 (List.mem_map_of_mem _ hv)

/-- C1 witness. -/
theorem UpdateValidatorSet_delta_characterization_witness :
    ([] : AccountSet) = (nextCommittee sampleFull 2).filter (fun v =>
        match lookupLast sampleCurrent v.Address with
        | some o => decide (o.VotingPower ≠ v.VotingPower)
        | none => false)
    ∧ resolveList sampleLookup ((nextCommittee sampleFull 2).filter
        (fun v => (lookupLast sampleCurrent v.Address).isNone))
      = .ok [⟨[12], 75, some 3, true⟩]
    ∧ ([⟨[12], 75, some 3, true⟩] : AccountSet).map (·.Address)
      = ((nextCommittee sampleFull 2).filter
          (fun v => (lookupLast sampleCurrent v.Address).isNone)).map (·.Address) := by
  have h := UpdateValidatorSet_delta_characterization sampleLookup 2 sampleFull sampleCurrent
    ⟨[⟨[12], 75, some 3, true⟩], [], [1]⟩ (by decide) rfl
  exact ⟨h.2.1, h.2.2.1, h.2.2.2.1⟩

/-! ## Claim C6: registry-lookup policy of the delta engine -/

/-- C6: during delta computation, exactly the next-committee validators
absent from the current committee and still lacking a BLS key get one
registry lookup each (the lookup trace lists them in committee order;
committee members never appear in it), and if such a lookup fails the
whole `UpdateValidatorSet` call returns an error instead of a delta. -/
theorem UpdateValidatorSet_lookup_policy (lookup : Address → Int → Except String PubKey)
    (maxSize : Nat) (fullSet old : AccountSet) :
    ((∃ v ∈ nextCommittee fullSet maxSize,
        lookupLast old v.Address = none ∧ v.BlsKey = none ∧
          ∃ e, lookup v.Address v.VotingPower = .error e) →
      ∃ e, UpdateValidatorSet lookup maxSize (.ok fullSet) old = .error e)
    ∧ (∀ a u t,
        computeAddedUpdated lookup old (nextCommittee fullSet maxSize) = .ok (a, u, t) →
        t = ((nextCommittee fullSet maxSize).filter (fun v =>
            decide (lookupLast old v.Address = none ∧ v.BlsKey = none))).map
          (fun v => (v.Address, v.VotingPower))) := by
  constructor
  · intro hex
    obtain ⟨e, he⟩ := computeAddedUpdated_error hex
    refine ⟨e, ?_⟩
    simp only [UpdateValidatorSet, nextCommittee_eq]
    rw [he]
  · intro a u t h
    exact (computeAddedUpdated_ok h).2.2

/-- C6 witness. -/
theorem UpdateValidatorSet_lookup_policy_witness :
    (∃ e, UpdateValidatorSet failLookup 2 (.ok [⟨[3], 5, none, true⟩]) [] = .error e)
    ∧ ([([3], (5 : Int))] : List (Address × Int))
        = ((nextCommittee [⟨[3], 5, none, true⟩] 2).filter (fun v =>
            decide (lookupLast [] v.Address = none ∧ v.BlsKey = none))).map
          (fun v => (v.Address, v.VotingPower)) := by
  constructor
  · exact (UpdateValidatorSet_lookup_policy failLookup 2 [⟨[3], 5, none, true⟩] []).1
      ⟨⟨[3], 5, none, true⟩, by decide, rfl, rfl, "no validator data", rfl⟩
  · exact (UpdateValidatorSet_lookup_policy sampleLookup 2 [⟨[3], 5, none, true⟩] []).2
      [⟨[3], 5, some 9, true⟩] [] [([3], 5)] rfl

/-! ## Claim C5: applying the delta -/

/-- C5 (counterexample): the delta application rule keeps survivors in
current-committee order, while the next committee is sorted by stake, so
the applied result differs from `nextCommittee` as a sequence: with
current committee `[A(100), B(50)]` and stored set `[A(100), B(250)]`
the applied delta yields `[A(100), B(250)]` but the next committee is
`[B(250), A(100)]`. -/
theorem applyDelta_order_cex :
    UpdateValidatorSet sampleLookup 2
        (.ok [⟨[10], 100, some 1, true⟩, ⟨[11], 250, some 2, true⟩])
        [⟨[10], 100, some 1, true⟩, ⟨[11], 50, some 2, true⟩]
      = .ok ⟨[], [⟨[11], 250, some 2, true⟩], []⟩
    ∧ applyDelta [⟨[10], 100, some 1, true⟩, ⟨[11], 50, some 2, true⟩]
        ⟨[], [⟨[11], 250, some 2, true⟩], []⟩
      ≠ nextCommittee [⟨[10], 100, some 1, true⟩, ⟨[11], 250, some 2, true⟩] 2 :=
  ⟨rfl, by decide⟩

theorem find?_addr_self {l : AccountSet} (hnd : (l.map (·.Address)).Nodup)
    {o : ValidatorMetadata} (ho : o ∈ l) :
    l.find? (fun v => decide (v.Address = o.Address)) = some o := by
  induction l with
  | nil => simp at ho
  | cons v rest ih =>
      rw [List.map_cons, List.nodup_cons] at hnd
      rcases List.mem_cons.mp ho with rfl | hmem
      · rw [List.find?_cons_of_pos _ (by simp)]
      · have hne : ¬ (v.Address = o.Address) := by
          intro h
          exact hnd.1 (h ▸ List.mem_map_of_mem (·.Address) hmem)
        rw [List.find?_cons_of_neg _ (by simpa using hne)]
        exact ih hnd.2 hmem

theorem lookupLast_self {l : AccountSet} (hnd : (l.map (·.Address)).Nodup)
    {o : ValidatorMetadata} (ho : o ∈ l) : lookupLast l o.Address = some o := by
  unfold lookupLast
  have hnd' : (l.reverse.map (·.Address)).Nodup := by
    rw [List.map_reverse]
    exact List.nodup_reverse.mpr hnd
  exact find?_addr_self hnd' (List.mem_reverse.mpr ho)

theorem addr_unique {l : AccountSet} (hnd : (l.map (·.Address)).Nodup)
    {u n : ValidatorMetadata} (hu : u ∈ l) (hn : n ∈ l)
    (h : u.Address = n.Address) : u = n := by
  have h1 := lookupLast_self hnd hu
  have h2 := lookupLast_self hnd hn
  rw [h, h2] at h1
  injection h1 with h1
  exact h1.symm

theorem lookupLast_mem {l : AccountSet} {a : Address} {o : ValidatorMetadata}
    (h : lookupLast l a = some o) : o ∈ l ∧ o.Address = a := by
  unfold lookupLast at h
  refine ⟨List.mem_reverse.mp (List.mem_of_find?_eq_some h), ?_⟩
  have := List.find?_some h
  simpa using this

theorem lookupLast_isNone_iff (l : AccountSet) (a : Address) :
    (lookupLast l a).isNone ↔ a ∉ l.map (·.Address) := by
  unfold lookupLast
  rw [Option.isNone_iff_eq_none, List.find?_eq_none]
  simp [List.mem_map]

theorem removeAtPositions_congr {vs : AccountSet} :
    ∀ (k : Nat) (b1 b2 : Bitmap), (∀ j, k ≤ j → (j ∈ b1 ↔ j ∈ b2)) →
      removeAtPositions k b1 vs = removeAtPositions k b2 vs := by
  induction vs with
  | nil => intro k b1 b2 _; rfl
  | cons v rest ih =>
      intro k b1 b2 h
      rw [removeAtPositions, removeAtPositions]
      by_cases hk : k ∈ b1
      · rw [if_pos hk, if_pos ((h k le_rfl).mp hk)]
        exact ih (k + 1) b1 b2 (fun j hj => h j (by omega))
      · rw [if_neg hk, if_neg (fun hc => hk ((h k le_rfl).mpr hc))]
        rw [ih (k + 1) b1 b2 (fun j hj => h j (by omega))]

theorem removeAtPositions_computeRemoved (addrs : List Address) :
    ∀ (vs : AccountSet) (k : Nat),
      removeAtPositions k (computeRemoved k addrs vs) vs
        = vs.filter (fun v => decide (v.Address ∈ addrs)) := by
  intro vs
  induction vs with
  | nil => intro k; rfl
  | cons v rest ih =>
      intro k
      by_cases hv : v.Address ∈ addrs
      · rw [computeRemoved, if_pos hv, removeAtPositions,
          if_neg (fun hc => by have := computeRemoved_ge hc; omega),
          List.filter_cons_of_pos (by simpa using hv)]
        have hshift : removeAtPositions (k + 1) (computeRemoved (k + 1) addrs rest) rest
            = rest.filter (fun v => decide (v.Address ∈ addrs)) := ih (k + 1)
        rw [hshift]
      · rw [computeRemoved, if_neg hv, removeAtPositions,
          if_pos (List.mem_cons_self _ _),
          List.filter_cons_of_neg (by simpa using hv)]
        rw [removeAtPositions_congr (k + 1) (k :: computeRemoved (k + 1) addrs rest)
          (computeRemoved (k + 1) addrs rest) (fun j hj => by
            constructor
            · intro hm
              rcases List.mem_cons.mp hm with rfl | hm2
              · omega
              · exact hm2
            · intro hm
              exact List.mem_cons_of_mem _ hm)]
        exact ih (k + 1)

theorem resolveList_id {lookup : Address → Int → Except String PubKey}
    {vs : List ValidatorMetadata} (h : ∀ v ∈ vs, v.BlsKey ≠ none) :
    resolveList lookup vs = .ok vs := by
  induction vs with
  | nil => rfl
  | cons v rest ih =>
      rw [resolveList, resolveNew, if_neg (h v (List.mem_cons_self _ _)),
        ih (fun w hw => h w (List.mem_cons_of_mem _ hw))]
      rfl

theorem updateAddr_map_addr (m : StakeMap) (a : Address) (d : ValidatorMetadata)
    (hd : d.Address = a) :
    (updateAddr m a d).map (·.Address) = m.map (·.Address) := by
  rw [updateAddr, List.map_map]
  apply List.map_congr_left
  intro v _
  by_cases hv : v.Address = a
  · simp [hv, hd]
  · simp [hv]

theorem mapSet_nodup_addr (m : StakeMap) (d : ValidatorMetadata)
    (hnd : (m.map (·.Address)).Nodup) :
    ((mapSet m d).map (·.Address)).Nodup := by
  rw [mapSet]
  by_cases h : (lookupAddr m d.Address).isSome
  · rw [if_pos h, updateAddr_map_addr m d.Address d rfl]
    exact hnd
  · rw [if_neg h, List.map_append]
    refine List.Nodup.append hnd (by simp) ?_
    intro x hx hx2
    rcases List.mem_singleton.mp (by simpa using hx2) with rfl
    exact h ((lookupAddr_isSome_iff m d.Address).mpr hx)

theorem newValidatorStakeMap_nodup_addr (fs : AccountSet) :
    ((newValidatorStakeMap fs).map (·.Address)).Nodup := by
  rw [newValidatorStakeMap]
  have main : ∀ (l : AccountSet) (acc : StakeMap), (acc.map (·.Address)).Nodup →
      ((l.foldl mapSet acc).map (·.Address)).Nodup := by
    intro l
    induction l with
    | nil => intro acc h; exact h
    | cons v rest ih =>
        intro acc h
        rw [List.foldl_cons]
        exact ih (mapSet acc v) (mapSet_nodup_addr acc v h)
  exact main fs [] (by simp)

theorem getActiveValidators_nodup_addr (m : StakeMap) (n : Nat)
    (hnd : (m.map (·.Address)).Nodup) :
    ((getActiveValidators m n).map (·.Address)).Nodup := by
  rw [getActiveValidators_eq_take]
  have h1 : ((sortVals (m.filter (fun v => decide (0 < v.VotingPower)))).map (·.Address)).Nodup := by
    rw [List.Perm.nodup_iff ((sortVals_perm _).map (·.Address))]
    exact List.Nodup.sublist (List.Sublist.map _ (List.filter_sublist m)) hnd
  exact List.Nodup.sublist (List.Sublist.map _ (List.take_sublist _ _)) h1

theorem nextCommittee_nodup_addr (fullSet : AccountSet) (maxSize : Nat) :
    ((nextCommittee fullSet maxSize).map (·.Address)).Nodup :=
  getActiveValidators_nodup_addr _ _ (newValidatorStakeMap_nodup_addr fullSet)

/-- C5 (amended): applying the delta (remove marked positions, append
Added, overwrite Updated by address) to the current committee yields a
committee containing exactly the validators of the independently
computed next committee — a permutation of it, not the same sequence,
since survivors keep their current-committee positions while the next
committee is sorted by stake. This holds provided the current committee
is consistent with the stored set: a committee member whose voting power
is unchanged carries the same record in both, and every next-committee
validator absent from the current committee already has a BLS key (so
the record appended to Added is the stored record itself). -/
theorem applyDelta_perm (lookup : Address → Int → Except String PubKey)
    (maxSize : Nat) (fullSet old : AccountSet) (delta : ValidatorSetDelta)
    (hndOld : (old.map (·.Address)).Nodup)
    (hok : UpdateValidatorSet lookup maxSize (.ok fullSet) old = .ok delta)
    (hcoh : ∀ v ∈ nextCommittee fullSet maxSize, ∀ o,
        lookupLast old v.Address = some o → o.VotingPower = v.VotingPower → o = v)
    (hkeys : ∀ v ∈ nextCommittee fullSet maxSize,
        lookupLast old v.Address = none → v.BlsKey ≠ none) :
    applyDelta old delta ~ nextCommittee fullSet maxSize := by
  have hndNext := nextCommittee_nodup_addr fullSet maxSize
  simp only [UpdateValidatorSet, nextCommittee_eq] at hok
  cases hcau : computeAddedUpdated lookup old (nextCommittee fullSet maxSize) with
  | error e => rw [hcau] at hok; simp at hok
  | ok r =>
  obtain ⟨ad, up, tr⟩ := r
  rw [hcau] at hok
  injection hok with hok
  subst hok
  obtain ⟨hu, ha, _⟩ := computeAddedUpdated_ok hcau
  have hall : ∀ v ∈ (nextCommittee fullSet maxSize).filter
      (fun v => (lookupLast old v.Address).isNone), v.BlsKey ≠ none := by
    intro v hv
    rw [List.mem_filter] at hv
    exact hkeys v hv.1 (Option.isNone_iff_eq_none.mp hv.2)
  rw [resolveList_id hall] at ha
  injection ha with hadded
  have hovw_addr : ∀ v : ValidatorMetadata,
      ((match up.find? (fun u => decide (u.Address = v.Address)) with
        | some u => u | none => v : ValidatorMetadata)).Address = v.Address := by
    intro v
    cases hf : up.find? (fun u => decide (u.Address = v.Address)) with
    | none => rfl
    | some u =>
        have := List.find?_some hf
        simpa using this
  have hsurv : ∀ s ∈ old.filter
        (fun v => decide (v.Address ∈ (nextCommittee fullSet maxSize).map (·.Address))),
      ∀ n ∈ nextCommittee fullSet maxSize, n.Address = s.Address →
        (match up.find? (fun u => decide (u.Address = s.Address)) with
         | some u => u | none => s) = n := by
    intro s hs n hn hna
    rw [List.mem_filter] at hs
    cases hf : up.find? (fun u => decide (u.Address = s.Address)) with
    | some u =>
        have humem : u ∈ up := List.mem_of_find?_eq_some hf
        have hua : u.Address = s.Address := by simpa using List.find?_some hf
        rw [hu, List.mem_filter] at humem
        exact addr_unique hndNext humem.1 hn (by rw [hua, hna])
    | none =>
        have hlook : lookupLast old s.Address = some s := lookupLast_self hndOld hs.1
        have hnp : ¬ (match lookupLast old n.Address with
            | some o => decide (o.VotingPower ≠ n.VotingPower)
            | none => false) = true := by
          intro hc
          have hnmem : n ∈ up := by
            rw [hu, List.mem_filter]
            exact ⟨hn, hc⟩
          have hcontra := List.find?_eq_none.mp hf n hnmem
          simp [hna] at hcontra
        rw [hna, hlook] at hnp
        simp only [decide_eq_true_eq] at hnp
        have hpe : s.VotingPower = n.VotingPower := not_not.mp hnp
        exact hcoh n hn s (by rw [hna]; exact hlook) hpe
  have hpart1 : ∀ x,
      x ∈ (old.filter
          (fun v => decide (v.Address ∈ (nextCommittee fullSet maxSize).map (·.Address)))).map
        (fun v => match up.find? (fun u => decide (u.Address = v.Address)) with
                  | some u => u | none => v)
      ↔ x ∈ (nextCommittee fullSet maxSize).filter
          (fun v => (lookupLast old v.Address).isSome) := by
    intro x
    constructor
    · intro hx
      rw [List.mem_map] at hx
      obtain ⟨s, hs, rfl⟩ := hx
      have hs' := hs
      rw [List.mem_filter] at hs'
      have hsa : s.Address ∈ (nextCommittee fullSet maxSize).map (·.Address) := by
        simpa using hs'.2
      rw [List.mem_map] at hsa
      obtain ⟨n, hn, hna⟩ := hsa
      rw [hsurv s hs n hn hna, List.mem_filter]
      refine ⟨hn, ?_⟩
      rw [hna, lookupLast_self hndOld hs'.1]
      rfl
    · intro hx
      rw [List.mem_filter] at hx
      obtain ⟨hn, hsome⟩ := hx
      obtain ⟨o, ho⟩ := Option.isSome_iff_exists.mp hsome
      obtain ⟨homem, hoa⟩ := lookupLast_mem ho
      have hkeptmem : o ∈ old.filter
          (fun v => decide (v.Address ∈ (nextCommittee fullSet maxSize).map (·.Address))) := by
        rw [List.mem_filter]
        refine ⟨homem, ?_⟩
        simp only [decide_eq_true_eq, hoa]
        exact List.mem_map_of_mem _ hn
      rw [List.mem_map]
      exact ⟨o, hkeptmem, hsurv o hkeptmem x hn hoa.symm⟩
  have hnd1 : ((old.filter
      (fun v => decide (v.Address ∈ (nextCommittee fullSet maxSize).map (·.Address)))).map
        (fun v => match up.find? (fun u => decide (u.Address = v.Address)) with
                  | some u => u | none => v)).Nodup := by
    apply List.Nodup.of_map (·.Address)
    rw [List.map_map]
    have heq : (old.filter
        (fun v => decide (v.Address ∈ (nextCommittee fullSet maxSize).map (·.Address)))).map
          ((fun v : ValidatorMetadata => v.Address) ∘
            (fun v => match up.find? (fun u => decide (u.Address = v.Address)) with
                      | some u => u | none => v))
        = (old.filter
            (fun v => decide (v.Address ∈ (nextCommittee fullSet maxSize).map (·.Address)))).map
          (·.Address) :=
      List.map_congr_left (fun a _ => hovw_addr a)
    rw [heq]
    exact List.Nodup.sublist (List.Sublist.map _ (List.filter_sublist _)) hndOld
  have hnd2 : ((nextCommittee fullSet maxSize).filter
      (fun v => (lookupLast old v.Address).isSome)).Nodup :=
    List.Nodup.of_map (·.Address)
      (List.Nodup.sublist (List.Sublist.map _ (List.filter_sublist _)) hndNext)
  have hperm1 := (List.perm_ext_iff_of_nodup hnd1 hnd2).mpr hpart1
  have hadd_id : ad.map
      (fun v => match up.find? (fun u => decide (u.Address = v.Address)) with
                | some u => u | none => v) = ad := by
    have hcg : ∀ x ∈ ad,
        (match up.find? (fun u => decide (u.Address = x.Address)) with
         | some u => u | none => x) = x := by
      intro x hx
      rw [← hadded, List.mem_filter] at hx
      cases hf : up.find? (fun u => decide (u.Address = x.Address)) with
      | none => rfl
      | some u =>
          have humem : u ∈ up := List.mem_of_find?_eq_some hf
          have hua : u.Address = x.Address := by simpa using List.find?_some hf
          rw [hu, List.mem_filter] at humem
          have hpred := humem.2
          rw [hua, Option.isNone_iff_eq_none.mp hx.2] at hpred
          simp at hpred
    calc ad.map (fun v => match up.find? (fun u => decide (u.Address = v.Address)) with
          | some u => u | none => v)
        = ad.map id := List.map_congr_left (fun a hmem => hcg a hmem)
      _ = ad := List.map_id ad
  simp only [applyDelta]
  rw [List.map_append, removeAtPositions_computeRemoved, hadd_id]
  refine (hperm1.append (List.Perm.refl ad)).trans ?_
  rw [← hadded]
  have hsplit := List.filter_append_perm
    (fun v => (lookupLast old v.Address).isSome) (nextCommittee fullSet maxSize)
  have hcong : (nextCommittee fullSet maxSize).filter
        (fun x => !(lookupLast old x.Address).isSome)
      = (nextCommittee fullSet maxSize).filter
        (fun v => (lookupLast old v.Address).isNone) := by
    apply List.filter_congr
    intro x _
    cases lookupLast old x.Address <;> rfl
  rw [hcong] at hsplit
  exact hsplit

/-- C5 witness. -/
theorem applyDelta_perm_witness :
    applyDelta sampleCurrent ⟨[⟨[12], 75, some 3, true⟩], [], [1]⟩
      ~ nextCommittee sampleFull 2 := by
  have hnext : nextCommittee sampleFull 2
      = [⟨[10], 100, some 1, true⟩, ⟨[12], 75, some 3, true⟩] := rfl
  refine applyDelta_perm sampleLookup 2 sampleFull sampleCurrent
    ⟨[⟨[12], 75, some 3, true⟩], [], [1]⟩ (by decide) rfl ?_ ?_
  · intro v hv o ho _
    rw [hnext] at hv
    rcases List.mem_cons.mp hv with rfl | hv2
    · have h2 : some (⟨[10], 100, some 1, true⟩ : ValidatorMetadata) = some o := ho
      exact (Option.some.inj h2).symm
    · rcases List.mem_cons.mp hv2 with rfl | hv3
      · have h2 : (none : Option ValidatorMetadata) = some o := ho
        exact Option.noConfusion h2
      · simp at hv3
  · intro v hv hl
    rw [hnext] at hv
    rcases List.mem_cons.mp hv with rfl | hv2
    · have h2 : some (⟨[10], 100, some 1, true⟩ : ValidatorMetadata) = none := hl
      exact Option.noConfusion h2
    · rcases List.mem_cons.mp hv2 with rfl | hv3
      · simp
      · simp at hv3
